import Mathlib

/-!
Verification of the typed-identifier layer (`src/index.ts`).

The repository code in `src/index.ts` composes two dependencies:

* the TypeID codec (`typeid-js`): base-32 suffix codec, identifier parsing
  and formatting. That code is not under `src/`, so it is modelled from
  the spec (sections 4.2, 4.3 and 6): 26-character base-32 suffix over the
  alphabet `0123456789abcdefghjkmnpqrstvwxyz`, two fixed high bits, parse
  at the final underscore separator, lowercase bounded prefixes.
* the `zod` validation pipeline: a string schema with `startsWith` and
  `length` checks followed by a `transform`.  `safeParse` reports failed
  checks as a structured failure and only runs the transform when every
  check passed; an exception raised inside the transform is not caught by
  `safeParse` and escapes to the caller (zod documents that transforms
  must not throw).  The `SafeParse` type below records all three
  outcomes.

Machine integers are modelled as `Nat` with explicit bounds (`< 2 ^ 128`);
JS exceptions are modelled as `Except.error` carrying the message;
JS `undefined` resulting from a missed object-key lookup is `none`.
-/

namespace TypeidZ

/-! ### Prefix registry (`src/index.ts` lines 6–20) -/

/-- The closed set of registered type names, from `idTypesMapNameToPrefix`. -/
inductive IdName where
  | user
  | post
  | comment
deriving DecidableEq

/-- Forward registry map `idTypesMapNameToPrefix` (`src/index.ts` lines 6–10). -/
def idTypesMapNameToPrefix : IdName → String
  | .user => "usr"
  | .post => "pst"
  | .comment => "cmt"

/-- Reverse registry map `idTypesMapPrefixToName` (`src/index.ts` lines 18–20):
built in the source by swapping the entries of the forward map with
`Object.fromEntries`; an unregistered key yields JS `undefined`, i.e. `none`. -/
def idTypesMapPrefixToName (p : String) : Option IdName :=
  if p = "usr" then some .user
  else if p = "pst" then some .post
  else if p = "cmt" then some .comment
  else none

/-- The fixed suffix length `typeIdLength` (`src/index.ts` line 4). -/
def typeIdLength : Nat := 26

/-! ### Suffix codec.

Modelled from the spec: the Suffix Codec of section 4.2 / section 6
(realised by the `typeid-js` dependency, which is not part of `src/`). -/

/-- The ordered base-32 suffix alphabet (32 symbols, excluding `i l o u`). -/
def base32Alphabet : List Char := "0123456789abcdefghjkmnpqrstvwxyz".data

/-- Symbol for a base-32 digit. -/
def encodeChar (d : Nat) : Char := base32Alphabet.getD d '0'

/-- Numeric value of a suffix character: its position in the ordered
alphabet (the decode table); `none` for a character outside the
restricted alphabet. -/
def decodeChar (c : Char) : Option Nat :=
  base32Alphabet.findIdx? fun d => d == c

/-- Big-endian base-`b` digit expansion of `v`, padded to `n` digits. -/
def natDigits (b : Nat) : Nat → Nat → List Nat
  | 0, _ => []
  | n + 1, v => v / b ^ n :: natDigits b n (v % b ^ n)

/-- Value of a big-endian digit list in base `b`. -/
def digitsVal (b : Nat) (l : List Nat) : Nat :=
  l.foldl (fun a d => a * b + d) 0

/-- The digit list of the 26-symbol suffix encoding of a 128-bit value. -/
def suffixDigits (v : Nat) : List Nat := natDigits 32 26 v

/-- Encoding `encode`: the 26-character base-32 suffix of a 128-bit value. -/
def encodeSuffixChars (v : Nat) : List Char := (suffixDigits v).map encodeChar

/-- The encoded suffix as a string. -/
def encodeSuffix (v : Nat) : String := ⟨encodeSuffixChars v⟩

/-- Decode every character of a suffix; `none` when any character lies
outside the restricted alphabet. -/
def decodeChars : List Char → Option (List Nat)
  | [] => some []
  | c :: cs =>
    match decodeChar c, decodeChars cs with
    | some d, some ds => some (d :: ds)
    | _, _ => none

/-- Decoding `decode`: fails when the string is not exactly 26 characters, when the
first symbol exceeds the range allowed by the two fixed high bits (first
character above `7`, which would overflow 128 bits), or when any character
lies outside the restricted alphabet. -/
def decodeSuffix (s : List Char) : Except String Nat :=
  if s.length = 26 then
    if s.headD '0' ≤ '7' then
      match decodeChars s with
      | some ds => .ok (digitsVal 32 ds)
      | none => .error "invalid base32 character"
    else .error "first character out of range"
  else .error "invalid suffix length"

/-! ### Identifier parsing.

Modelled from the spec: the Identifier Codec of section 4.3 (realised by
the `typeid-js` dependency): the separator is the final underscore, the
prefix is 0–63 lowercase alphanumeric characters starting with a letter,
and a present-but-empty prefix or suffix is malformed. -/

/-- Allowed non-leading prefix character (lowercase letter or digit). -/
def tailPfxChar (c : Char) : Bool :=
  ('a' ≤ c && c ≤ 'z') || ('0' ≤ c && c ≤ '9')

/-- Prefix syntax: 0–63 characters matching `[a-z][a-z0-9]*` when
non-empty. -/
def prefixOk : List Char → Bool
  | [] => true
  | c :: rest =>
    decide ((c :: rest).length ≤ 63) && ('a' ≤ c && c ≤ 'z') && rest.all tailPfxChar

/-- Split a character list at its final underscore: `some (before, after)`
when an underscore occurs, `none` otherwise (JS `lastIndexOf("_")` and the
two `substring`s around it). -/
def lastSplit : List Char → Option (List Char × List Char)
  | [] => none
  | c :: rest =>
    match lastSplit rest with
    | some (p, s) => some (c :: p, s)
    | none => if c = '_' then some ([], rest) else none

/-- Canonical text of a parsed identifier: bare suffix for the empty
prefix, `prefix_suffix` otherwise. -/
def tidToString (p s : List Char) : List Char :=
  if p.isEmpty then s else p ++ '_' :: s

/-- Parse an identifier into `(prefix, suffix)`: split at the final
underscore, reject an empty-but-present prefix or an empty suffix, check
the prefix syntax, and validate the suffix by decoding it.  Every `.error`
is a thrown JS `Error`. -/
def parseTypeId (input : List Char) : Except String (List Char × List Char) :=
  match lastSplit input with
  | none =>
    if input.isEmpty then .error "suffix cannot be empty"
    else
      match decodeSuffix input with
      | .ok _ => .ok ([], input)
      | .error e => .error e
  | some (p, s) =>
    if p.isEmpty then .error "prefix cannot be empty when there is a separator"
    else if s.isEmpty then .error "suffix cannot be empty"
    else if prefixOk p then
      match decodeSuffix s with
      | .ok _ => .ok (p, s)
      | .error e => .error e
    else .error "invalid prefix"

/-- The functional-API `fromString`: parse and return the canonical text. -/
def fromStringU (input : List Char) : Except String (List Char) :=
  (parseTypeId input).map fun ps => tidToString ps.1 ps.2

/-- Accessor `getType`: the portion before the final underscore (empty when there is
no underscore). -/
def getTypeU (input : List Char) : List Char :=
  match lastSplit input with
  | none => []
  | some (p, _) => p

/-- Accessor `getSuffix`: the portion after the final underscore (the whole string
when there is no underscore). -/
def getSuffixU (input : List Char) : List Char :=
  match lastSplit input with
  | none => input
  | some (_, s) => s

/-! ### UUID text form.

`typeid-js` converts between the 128-bit value and the canonical
hyphenated lowercase hexadecimal UUID string (8-4-4-4-12 digits). -/

/-- Hexadecimal digit symbol. -/
def hexChar (d : Nat) : Char := "0123456789abcdef".data.getD d '0'

/-- Value of a lowercase hexadecimal digit: its position in the digit
string. -/
def hexVal (c : Char) : Option Nat :=
  "0123456789abcdef".data.findIdx? fun d => d == c

/-- Big-endian hexadecimal digit characters of `v`, padded to `n`. -/
def hexDigits (n v : Nat) : List Char := (natDigits 16 n v).map hexChar

/-- Canonical hyphenated 8-4-4-4-12 text of a 128-bit value. -/
def formatUUIDChars (v : Nat) : List Char :=
  hexDigits 8 (v / 16 ^ 24) ++
    '-' :: (hexDigits 4 (v / 16 ^ 20 % 16 ^ 4) ++
      '-' :: (hexDigits 4 (v / 16 ^ 16 % 16 ^ 4) ++
        '-' :: (hexDigits 4 (v / 16 ^ 12 % 16 ^ 4) ++
          '-' :: hexDigits 12 (v % 16 ^ 12))))

/-- Canonical UUID string of a 128-bit value. -/
def formatUUID (v : Nat) : String := ⟨formatUUIDChars v⟩

/-- Consume exactly `n` hexadecimal characters, extending the accumulator. -/
def readHex : Nat → Nat → List Char → Option (Nat × List Char)
  | 0, acc, rest => some (acc, rest)
  | _ + 1, _, [] => none
  | n + 1, acc, c :: rest =>
    match hexVal c with
    | some d => readHex n (acc * 16 + d) rest
    | none => none

/-- Consume a literal hyphen. -/
def expectDash : List Char → Option (List Char)
  | [] => none
  | c :: rest => if c = '-' then some rest else none

/-- Parse a canonical hyphenated UUID string into its 128-bit value:
five hex groups of 8, 4, 4, 4 and 12 digits separated by hyphens, with
nothing left over. -/
def parseUUID (l : List Char) : Except String Nat :=
  match readHex 8 0 l with
  | none => .error "invalid UUID"
  | some (a, r) =>
    match expectDash r with
    | none => .error "invalid UUID"
    | some r =>
      match readHex 4 a r with
      | none => .error "invalid UUID"
      | some (a, r) =>
        match expectDash r with
        | none => .error "invalid UUID"
        | some r =>
          match readHex 4 a r with
          | none => .error "invalid UUID"
          | some (a, r) =>
            match expectDash r with
            | none => .error "invalid UUID"
            | some r =>
              match readHex 4 a r with
              | none => .error "invalid UUID"
              | some (a, r) =>
                match expectDash r with
                | none => .error "invalid UUID"
                | some r =>
                  match readHex 12 a r with
                  | none => .error "invalid UUID"
                  | some (a, r) =>
                    if r.isEmpty then .ok a else .error "invalid UUID"

/-! ### The repository's public operations (`src/index.ts` lines 29–74) -/

/-- JS `data.startsWith(pat)` on character lists (pattern first). -/
def startsWithL : List Char → List Char → Bool
  | [], _ => true
  | _ :: _, [] => false
  | c :: cs, d :: ds => c == d && startsWithL cs ds

/-- The registered wire prefix of a type name, as characters. -/
def wpChars (name : IdName) : List Char := (idTypesMapNameToPrefix name).data

/-- Outcome of `typeIdValidator(prefix).safeParse(data)`: a structured
success, a structured failure (a failed `startsWith` or `length` check),
or an exception that escaped `safeParse` (zod does not catch exceptions
thrown inside a `transform`). -/
inductive SafeParse where
  | success (value : String)
  | failure
  | thrown (msg : String)
deriving DecidableEq

/-- Model of `typeIdValidator(prefix).safeParse(data)` (`src/index.ts` lines 29–39):
the zod checks `startsWith(wp + "_")` and
`length(typeIdLength + wp.length + 1)` run first and any failed check is a
structured failure; only when both pass does the transform run
`TypeID.fromString(input).asType(wp).toString()`, whose thrown errors
escape `safeParse`. -/
def typeIdValidatorSafeParse (name : IdName) (data : String) : SafeParse :=
  if startsWithL (wpChars name ++ ['_']) data.data &&
      (data.data.length == typeIdLength + (wpChars name).length + 1) then
    match parseTypeId data.data with
    | .error e => .thrown e
    | .ok (p, s) =>
      if p = wpChars name then .success ⟨tidToString p s⟩
      else .thrown "cannot convert TypeID type"
  else .failure

/-- Model of `validateTypeId` (`src/index.ts` lines 64–67): the boolean
`safeParse(data).success`; `Except.error` models the exception that
escapes when the transform throws. -/
def validateTypeId (name : IdName) (data : String) : Except String Bool :=
  match typeIdValidatorSafeParse name data with
  | .success _ => .ok true
  | .failure => .ok false
  | .thrown e => .error e

/-- Model of `typeIdGenerator` (`src/index.ts` lines 41–42), that is
`typeid(wp).toString()`.
The fresh 128-bit value drawn from the process-wide unique-value source is
passed explicitly as `v`. -/
def typeIdGenerator (name : IdName) (v : Nat) : String :=
  ⟨wpChars name ++ '_' :: encodeSuffixChars v⟩

/-- Model of `typeIdFromUUID` (`src/index.ts` lines 44–52):
`TypeID.fromUUID(wp, uuid).toString()` — parse the UUID text, encode the
suffix, and build the identifier through the validating constructor. -/
def typeIdFromUUID (name : IdName) (uuid : String) : Except String String :=
  match parseUUID uuid.data with
  | .error e => .error e
  | .ok v =>
    if prefixOk (wpChars name) then
      match decodeSuffix (encodeSuffixChars v) with
      | .ok _ => .ok (String.mk (tidToString (wpChars name) (encodeSuffixChars v)))
      | .error e => .error e
    else .error "invalid prefix"

/-- Model of `typeIdToUUID` (`src/index.ts` lines 54–62): `fromString(input)` then
`{ uuid: toUUID(id).toString(), prefix: getType(id) }`, returned here as
the pair `(uuid, prefix)`. -/
def typeIdToUUID (input : String) : Except String (String × String) := do
  let id ← fromStringU input.data
  let v ← decodeSuffix (getSuffixU id)
  pure (formatUUID v, ⟨getTypeU id⟩)

/-- Model of `inferTypeId` (`src/index.ts` lines 69–74):
`idTypesMapPrefixToName[TypeID.fromString(input).getType()]` — a bare
object lookup whose miss is JS `undefined` (`none`), force-cast by the
source to the expected type. -/
def inferTypeId (input : String) : Except String (Option IdName) :=
  (parseTypeId input.data).map fun ps => idTypesMapPrefixToName ⟨ps.1⟩

/-! ### Helper lemmas -/

theorem data_mk (l : List Char) : (String.mk l).data = l := rfl

theorem startsWithL_head {c d : Char} {cs ds : List Char}
    (h : startsWithL (c :: cs) (d :: ds) = true) : c = d := by
  simp [startsWithL] at h
  exact h.1

theorem startsWithL_nil_pat {c : Char} {cs : List Char}
    (h : startsWithL (c :: cs) [] = true) : False := by
  simp [startsWithL] at h

theorem startsWithL_false_of_head_ne {a b : Char} {as bs l : List Char}
    (hne : a ≠ b) (h : startsWithL (b :: bs) l = true) :
    startsWithL (a :: as) l = false := by
  cases l with
  | nil => exact absurd h (by simp [startsWithL])
  | cons d ds =>
    have hb : b = d := startsWithL_head h
    subst hb
    simp [startsWithL, hne]

theorem safeParse_success_of_validate_true {t : IdName} {s : String}
    (h : validateTypeId t s = .ok true) :
    ∃ v, typeIdValidatorSafeParse t s = .success v := by
  unfold validateTypeId at h
  cases hsp : typeIdValidatorSafeParse t s with
  | success v => exact ⟨v, rfl⟩
  | failure => rw [hsp] at h; simp at h
  | thrown e => rw [hsp] at h; simp at h

theorem checks_of_safeParse_success {t : IdName} {s : String} {v : String}
    (h : typeIdValidatorSafeParse t s = .success v) :
    startsWithL (wpChars t ++ ['_']) s.data = true ∧
      s.data.length = typeIdLength + (wpChars t).length + 1 := by
  unfold typeIdValidatorSafeParse at h
  split at h
  · rename_i hc
    have hc' : startsWithL (wpChars t ++ ['_']) s.data = true ∧
        (s.data.length == typeIdLength + (wpChars t).length + 1) = true := by
      simpa using hc
    exact ⟨hc'.1, beq_iff_eq.mp hc'.2⟩
  · simp at h

/-! ### Claims -/

/-- C2: the spec claims `validateTypeId` returns a boolean for every input
and never throws, and in particular that on `"usr_" + "i" * 26` it returns
false.  In the code the candidate passes zod's `startsWith` and `length`
checks, the transform then calls `TypeID.fromString`, whose suffix
validation throws on the disallowed character `i`, and zod's `safeParse`
does not catch exceptions thrown inside a transform: the call throws
instead of returning false. -/
theorem validateTypeId_invalid_alphabet_throws :
    validateTypeId IdName.user "usr_iiiiiiiiiiiiiiiiiiiiiiiiii" =
      Except.error "first character out of range" := rfl

/-- C3: the spec claims `inferTypeId` fails with an `UnknownPrefix` error
for an unregistered prefix.  In the code the reverse-map lookup of an
unregistered prefix is a plain JS object access yielding `undefined`
(`none`), force-cast to the expected type: the call returns a non-error
value for the structurally valid but unregistered identifier
`"abc_" + "0" * 26`. -/
theorem inferTypeId_unknown_returns_undefined :
    inferTypeId "abc_00000000000000000000000000" = Except.ok none := rfl

/-- C8: the forward map `idTypesMapNameToPrefix` and the reverse map
`idTypesMapPrefixToName` are exact inverses: the reverse lookup of every
registered type name's prefix returns that name, and every successful
reverse lookup is inverted by the forward map (the mapping is a
bijection). -/
theorem registry_maps_inverse :
    (∀ t : IdName, idTypesMapPrefixToName (idTypesMapNameToPrefix t) = some t) ∧
      (∀ (p : String) (t : IdName),
        idTypesMapPrefixToName p = some t → idTypesMapNameToPrefix t = p) := by
  constructor
  · intro t
    cases t <;> rfl
  · intro p t h
    unfold idTypesMapPrefixToName at h
    split_ifs at h with h1 h2 h3
    · injection h with h
      subst h
      rw [h1]
      rfl
    · injection h with h
      subst h
      rw [h2]
      rfl
    · injection h with h
      subst h
      rw [h3]
      rfl

/-- Witness for C8 at the concrete entry `user ↦ "usr"`. -/
theorem registry_maps_inverse_witness :
    idTypesMapPrefixToName "usr" = some IdName.user ∧
      idTypesMapNameToPrefix IdName.user = "usr" :=
  ⟨rfl, registry_maps_inverse.2 "usr" IdName.user rfl⟩

/-- C5: for every string `"usr_"` followed by 26 characters of the valid
suffix alphabet, `typeIdValidator("post").safeParse` returns a structured
failure (the `startsWith "pst_"` check fails), never a success coerced to
a post identifier and never an exception. -/
theorem typeIdValidator_wrong_type_failure (s : List Char)
    (_hlen : s.length = 26) (_halpha : ∀ c ∈ s, (decodeChar c).isSome = true) :
    typeIdValidatorSafeParse IdName.post (String.mk ('u' :: 's' :: 'r' :: '_' :: s)) =
      SafeParse.failure := by
  have hwp : wpChars IdName.post ++ ['_'] = ['p', 's', 't', '_'] := rfl
  have hstart : startsWithL (wpChars IdName.post ++ ['_'])
      ('u' :: 's' :: 'r' :: '_' :: s) = false := by
    rw [hwp]
    have hpu : ('p' == 'u') = false := rfl
    simp [startsWithL, hpu]
  unfold typeIdValidatorSafeParse
  simp only [data_mk, hstart, Bool.false_and, Bool.and_eq_true]
  simp

/-- Witness for C5 at the all-zero suffix. -/
theorem typeIdValidator_wrong_type_failure_witness :
    (List.replicate 26 '0').length = 26 ∧
      typeIdValidatorSafeParse IdName.post
        (String.mk ('u' :: 's' :: 'r' :: '_' :: List.replicate 26 '0')) =
        SafeParse.failure :=
  ⟨by decide, typeIdValidator_wrong_type_failure (List.replicate 26 '0')
    (by decide) (by decide)⟩

/-- C4: a valid identifier of one registered type name is rejected by the
validator of every other registered type name: the wire prefixes of
distinct type names start with distinct characters, so the `startsWith`
check fails and `validateTypeId` returns false (a structured failure, not
an exception), even though the 26-character suffix would decode. -/
theorem validateTypeId_cross_type_false (t u : IdName) (hne : t ≠ u) (s : String)
    (hu : validateTypeId u s = Except.ok true) :
    validateTypeId t s = Except.ok false := by
  obtain ⟨v, hv⟩ := safeParse_success_of_validate_true hu
  obtain ⟨h1, -⟩ := checks_of_safeParse_success hv
  have hfalse : startsWithL (wpChars t ++ ['_']) s.data = false := by
    cases t <;> cases u <;>
      first
        | exact absurd rfl hne
        | exact startsWithL_false_of_head_ne (by decide) h1
  unfold validateTypeId typeIdValidatorSafeParse
  rw [hfalse]
  rfl

/-- Witness for C4: a concrete valid post identifier checked against
"user". -/
theorem validateTypeId_cross_type_false_witness :
    IdName.user ≠ IdName.post ∧
      validateTypeId IdName.post "pst_00000000000000000000000000" = Except.ok true ∧
      validateTypeId IdName.user "pst_00000000000000000000000000" = Except.ok false :=
  ⟨by decide, rfl,
    validateTypeId_cross_type_false IdName.user IdName.post (by decide)
      "pst_00000000000000000000000000" rfl⟩

/-- C6: removing any single character from a string accepted by
`validateTypeId` yields a string it rejects: validity forces the exact
length `len(prefix) + 1 + 26`, and the shortened string fails zod's
`length` check, so `safeParse` returns a structured failure and the
boolean is false. -/
theorem validateTypeId_truncation_false (t : IdName) (s : String)
    (h : validateTypeId t s = Except.ok true) (i : Nat) (hi : i < s.data.length) :
    validateTypeId t (String.mk (s.data.eraseIdx i)) = Except.ok false := by
  obtain ⟨v, hv⟩ := safeParse_success_of_validate_true h
  obtain ⟨-, h2⟩ := checks_of_safeParse_success hv
  have hlen : (s.data.eraseIdx i).length = s.data.length - 1 :=
    List.length_eraseIdx_of_lt hi
  have hbeq : ((String.mk (s.data.eraseIdx i)).data.length ==
      typeIdLength + (wpChars t).length + 1) = false := by
    rw [data_mk, hlen, h2]
    exact beq_eq_false_iff_ne.mpr (by omega)
  unfold validateTypeId typeIdValidatorSafeParse
  rw [hbeq]
  simp

/-- Witness for C6: dropping the final character of a concrete valid user
identifier. -/
theorem validateTypeId_truncation_false_witness :
    validateTypeId IdName.user "usr_00000000000000000000000000" = Except.ok true ∧
      29 < ("usr_00000000000000000000000000" : String).data.length ∧
      validateTypeId IdName.user
        (String.mk (("usr_00000000000000000000000000" : String).data.eraseIdx 29)) =
        Except.ok false :=
  ⟨rfl, by decide,
    validateTypeId_truncation_false IdName.user "usr_00000000000000000000000000"
      rfl 29 (by decide)⟩

/-! ### Codec lemmas -/

theorem natDigits_length (b : Nat) : ∀ n v, (natDigits b n v).length = n := by
  intro n
  induction n with
  | zero => intro v; rfl
  | succ n ih => intro v; simp [natDigits, ih]

theorem natDigits_lt {b : Nat} (hb : 0 < b) :
    ∀ n v, v < b ^ n → ∀ d ∈ natDigits b n v, d < b := by
  intro n
  induction n with
  | zero => intro v hv d hd; simp [natDigits] at hd
  | succ n ih =>
    intro v hv d hd
    rcases List.mem_cons.mp hd with rfl | hm
    · have hpos : 0 < b ^ n := Nat.pos_pow_of_pos n hb
      refine (Nat.div_lt_iff_lt_mul hpos).mpr ?_
      calc v < b ^ (n + 1) := hv
        _ = b * b ^ n := by rw [pow_succ, Nat.mul_comm]
    · exact ih (v % b ^ n) (Nat.mod_lt v (Nat.pos_pow_of_pos n hb)) d hm

theorem foldl_natDigits {b : Nat} (hb : 0 < b) :
    ∀ n v acc, v < b ^ n →
      (natDigits b n v).foldl (fun a d => a * b + d) acc = acc * b ^ n + v := by
  intro n
  induction n with
  | zero =>
    intro v acc hv
    rw [pow_zero] at hv
    have hv0 : v = 0 := by omega
    subst hv0
    simp [natDigits]
  | succ n ih =>
    intro v acc hv
    have hmod : v % b ^ n < b ^ n := Nat.mod_lt v (Nat.pos_pow_of_pos n hb)
    calc (natDigits b (n + 1) v).foldl (fun a d => a * b + d) acc
        = (natDigits b n (v % b ^ n)).foldl (fun a d => a * b + d)
            (acc * b + v / b ^ n) := rfl
      _ = (acc * b + v / b ^ n) * b ^ n + v % b ^ n := ih _ _ hmod
      _ = acc * (b ^ n * b) + (b ^ n * (v / b ^ n) + v % b ^ n) := by ring
      _ = acc * b ^ (n + 1) + v := by rw [Nat.div_add_mod, pow_succ]

theorem encodeSuffixChars_length (v : Nat) : (encodeSuffixChars v).length = 26 := by
  simp [encodeSuffixChars, suffixDigits, natDigits_length]

theorem two_pow_128_le : (2 : Nat) ^ 128 ≤ 32 ^ 26 := by norm_num

theorem digitsVal_suffixDigits {v : Nat} (hv : v < 2 ^ 128) :
    digitsVal 32 (suffixDigits v) = v := by
  have h := @foldl_natDigits 32 (by norm_num) 26 v 0
    (lt_of_lt_of_le hv two_pow_128_le)
  simpa [digitsVal, suffixDigits] using h

theorem decodeChar_encodeChar : ∀ d < 32, decodeChar (encodeChar d) = some d := by
  decide

theorem encodeChar_le_seven : ∀ d < 8, encodeChar d ≤ '7' := by decide

theorem decodeChars_map_encodeChar :
    ∀ l : List Nat, (∀ d ∈ l, d < 32) → decodeChars (l.map encodeChar) = some l := by
  intro l
  induction l with
  | nil => intro _; rfl
  | cons d ds ih =>
    intro h
    have hd := decodeChar_encodeChar d (h d (List.mem_cons_self d ds))
    have hds := ih fun x hx => h x (List.mem_cons_of_mem d hx)
    simp [decodeChars, hd, hds]

theorem decodeSuffix_encode {v : Nat} (hv : v < 2 ^ 128) :
    decodeSuffix (encodeSuffixChars v) = .ok v := by
  have hlen := encodeSuffixChars_length v
  have hheadlist : encodeSuffixChars v =
      encodeChar (v / 32 ^ 25) :: (natDigits 32 25 (v % 32 ^ 25)).map encodeChar := rfl
  have hdiv : v / 32 ^ 25 < 8 := by
    refine (Nat.div_lt_iff_lt_mul (Nat.pos_pow_of_pos 25 (by norm_num))).mpr ?_
    calc v < 2 ^ 128 := hv
      _ = 8 * 32 ^ 25 := by norm_num
  have hhead : (encodeSuffixChars v).headD '0' ≤ '7' := by
    rw [hheadlist]
    exact encodeChar_le_seven _ hdiv
  have hdec : decodeChars (encodeSuffixChars v) = some (suffixDigits v) :=
    decodeChars_map_encodeChar (suffixDigits v)
      (natDigits_lt (by norm_num) 26 v (lt_of_lt_of_le hv two_pow_128_le))
  unfold decodeSuffix
  rw [if_pos hlen, if_pos hhead, hdec]
  show Except.ok (digitsVal 32 (suffixDigits v)) = Except.ok v
  rw [digitsVal_suffixDigits hv]

/-! ### Parsing lemmas -/

theorem lastSplit_of_no_underscore : ∀ {l : List Char}, '_' ∉ l → lastSplit l = none := by
  intro l h
  induction l with
  | nil => rfl
  | cons c cs ih =>
    have hcs : lastSplit cs = none := ih fun hm => h (List.mem_cons_of_mem c hm)
    have hc : ¬(c = '_') := fun hc => h (hc ▸ List.mem_cons_self c cs)
    simp [lastSplit, hcs, hc]

theorem lastSplit_append {s : List Char} (hs : '_' ∉ s) :
    ∀ p : List Char, lastSplit (p ++ '_' :: s) = some (p, s) := by
  intro p
  induction p with
  | nil => simp [lastSplit, lastSplit_of_no_underscore hs]
  | cons c cs ih => simp [lastSplit, ih]

theorem no_underscore_of_decodeChars :
    ∀ {s : List Char} {ds : List Nat}, decodeChars s = some ds → '_' ∉ s := by
  intro s
  induction s with
  | nil =>
    intro ds _ hmem
    simp at hmem
  | cons c cs ih =>
    intro ds hd hmem
    rcases List.mem_cons.mp hmem with heq | hm
    · rw [← heq] at hd
      have hu : decodeChar '_' = none := by decide
      simp [decodeChars, hu] at hd
    · cases hdc : decodeChar c with
      | none => rw [decodeChars, hdc] at hd; simp at hd
      | some d =>
        cases hcs : decodeChars cs with
        | none => rw [decodeChars, hdc, hcs] at hd; simp at hd
        | some ds2 => exact ih hcs hm

theorem decodeSuffix_ok_facts {s : List Char} {w : Nat} (h : decodeSuffix s = .ok w) :
    s.length = 26 ∧ ∃ ds, decodeChars s = some ds := by
  unfold decodeSuffix at h
  by_cases h1 : s.length = 26
  · rw [if_pos h1] at h
    by_cases h2 : s.headD '0' ≤ '7'
    · rw [if_pos h2] at h
      cases hds : decodeChars s with
      | none => rw [hds] at h; exact Except.noConfusion h
      | some ds => exact ⟨h1, ds, rfl⟩
    · rw [if_neg h2] at h; exact Except.noConfusion h
  · rw [if_neg h1] at h; exact Except.noConfusion h

theorem getSuffixU_format {p s : List Char} (hs : '_' ∉ s) :
    getSuffixU (p ++ '_' :: s) = s := by
  unfold getSuffixU
  rw [lastSplit_append hs]

theorem getTypeU_format {p s : List Char} (hs : '_' ∉ s) :
    getTypeU (p ++ '_' :: s) = p := by
  unfold getTypeU
  rw [lastSplit_append hs]

theorem parseTypeId_format {p s : List Char} (hp : p ≠ []) (hpo : prefixOk p = true)
    (hs : '_' ∉ s) (hsne : s ≠ []) {w : Nat} (hw : decodeSuffix s = .ok w) :
    parseTypeId (p ++ '_' :: s) = .ok (p, s) := by
  unfold parseTypeId
  rw [lastSplit_append hs]
  simp only [List.isEmpty_eq_true]
  rw [if_neg hp, if_neg hsne, if_pos hpo, hw]

theorem startsWithL_self_append : ∀ p t : List Char, startsWithL p (p ++ t) = true := by
  intro p t
  induction p with
  | nil => rfl
  | cons c cs ih => simp [startsWithL, ih]

theorem wpChars_ne_nil : ∀ t : IdName, wpChars t ≠ [] := by
  intro t
  cases t <;> decide

theorem prefixOk_wpChars : ∀ t : IdName, prefixOk (wpChars t) = true := by
  intro t
  cases t <;> decide

theorem wpChars_length (t : IdName) : (wpChars t).length = 3 := by
  cases t <;> rfl

theorem mk_wpChars (t : IdName) : String.mk (wpChars t) = idTypesMapNameToPrefix t := by
  cases t <;> rfl

/-! ### Generated identifiers -/

theorem encodeSuffixChars_no_underscore (v : Nat) (hv : v < 2 ^ 128) :
    '_' ∉ encodeSuffixChars v := by
  obtain ⟨-, ds, hds⟩ := decodeSuffix_ok_facts (decodeSuffix_encode hv)
  exact no_underscore_of_decodeChars hds

theorem encodeSuffixChars_ne_nil (v : Nat) : encodeSuffixChars v ≠ [] := by
  intro hnil
  have h := encodeSuffixChars_length v
  rw [hnil] at h
  simp at h

/-- The `safeParse` pipeline accepts a well-formed `wp_suffix` identifier
built from a registered prefix and a 128-bit value. -/
theorem safeParse_wellformed (t : IdName) (v : Nat) (hv : v < 2 ^ 128) :
    typeIdValidatorSafeParse t (String.mk (wpChars t ++ '_' :: encodeSuffixChars v)) =
      .success (String.mk (wpChars t ++ '_' :: encodeSuffixChars v)) := by
  have hassoc : wpChars t ++ '_' :: encodeSuffixChars v =
      (wpChars t ++ ['_']) ++ encodeSuffixChars v := by simp
  have hstart : startsWithL (wpChars t ++ ['_'])
      (wpChars t ++ '_' :: encodeSuffixChars v) = true := by
    rw [hassoc]
    exact startsWithL_self_append _ _
  have hleneq : (wpChars t ++ '_' :: encodeSuffixChars v).length =
      typeIdLength + (wpChars t).length + 1 := by
    simp [encodeSuffixChars_length, typeIdLength]
    omega
  have hparse : parseTypeId (wpChars t ++ '_' :: encodeSuffixChars v) =
      .ok (wpChars t, encodeSuffixChars v) :=
    parseTypeId_format (wpChars_ne_nil t) (prefixOk_wpChars t)
      (encodeSuffixChars_no_underscore v hv) (encodeSuffixChars_ne_nil v)
      (decodeSuffix_encode hv)
  unfold typeIdValidatorSafeParse
  rw [data_mk, hstart, hparse]
  simp only [hleneq]
  simp [tidToString, wpChars_ne_nil t]

/-- C10: every freshly generated identifier passes its own type's
validator: `validateTypeId(T, typeIdGenerator(T, v))` is true for every
registered type name and every 128-bit value produced by the unique-value
source. -/
theorem validateTypeId_generator_true (t : IdName) (v : Nat) (hv : v < 2 ^ 128) :
    validateTypeId t (typeIdGenerator t v) = Except.ok true := by
  unfold validateTypeId typeIdGenerator
  rw [safeParse_wellformed t v hv]

/-- Witness for C10 at the concrete value 1. -/
theorem validateTypeId_generator_true_witness :
    (1 : Nat) < 2 ^ 128 ∧
      validateTypeId IdName.user (typeIdGenerator IdName.user 1) = Except.ok true :=
  ⟨by norm_num, validateTypeId_generator_true IdName.user 1 (by norm_num)⟩

/-- Applying `typeIdToUUID` to a well-formed `prefix_suffix` input returns the
decoded UUID text and the parsed prefix, with no registry involvement. -/
theorem typeIdToUUID_format (p s : List Char) (w : Nat)
    (hpne : p ≠ []) (hpo : prefixOk p = true) (hs : decodeSuffix s = .ok w) :
    typeIdToUUID (String.mk (p ++ '_' :: s)) =
      Except.ok (formatUUID w, String.mk p) := by
  obtain ⟨hlen, ds, hds⟩ := decodeSuffix_ok_facts hs
  have hsu : '_' ∉ s := no_underscore_of_decodeChars hds
  have hsne : s ≠ [] := by
    intro h
    rw [h] at hlen
    simp at hlen
  have hparse := parseTypeId_format hpne hpo hsu hsne hs
  unfold typeIdToUUID fromStringU
  rw [data_mk, hparse]
  have htts : tidToString p s = p ++ '_' :: s := by
    simp [tidToString, hpne]
  simp only [Except.map, Except.bind, htts, bind, getSuffixU_format hsu,
    getTypeU_format hsu, hs]
  rfl

/-- C9: `typeIdToUUID` performs no registry membership check: for every
prefix accepted by the parser (registered or not) and every syntactically
valid 26-character suffix, the call succeeds and returns that prefix
together with the decoded UUID. -/
theorem typeIdToUUID_unregistered_ok (p s : List Char) (w : Nat)
    (hpne : p ≠ []) (hpo : prefixOk p = true) (hs : decodeSuffix s = .ok w) :
    typeIdToUUID (String.mk (p ++ '_' :: s)) =
      Except.ok (formatUUID w, String.mk p) :=
  typeIdToUUID_format p s w hpne hpo hs

/-- Witness for C9 with the unregistered prefix "abc" and the all-zero
suffix. -/
theorem typeIdToUUID_unregistered_ok_witness :
    decodeSuffix (List.replicate 26 '0') = Except.ok 0 ∧
      typeIdToUUID (String.mk (['a', 'b', 'c'] ++ '_' :: List.replicate 26 '0')) =
        Except.ok (formatUUID 0, String.mk ['a', 'b', 'c']) :=
  ⟨rfl, typeIdToUUID_unregistered_ok ['a', 'b', 'c'] (List.replicate 26 '0') 0
    (by decide) (by decide) rfl⟩

/-! ### UUID text round trip -/

theorem hexVal_hexChar : ∀ d < 16, hexVal (hexChar d) = some d := by decide

theorem hexDigits_succ (n w : Nat) :
    hexDigits (n + 1) w = hexChar (w / 16 ^ n) :: hexDigits n (w % 16 ^ n) := rfl

theorem readHex_hexDigits :
    ∀ (n acc w : Nat) (rest : List Char), w < 16 ^ n →
      readHex n acc (hexDigits n w ++ rest) = some (acc * 16 ^ n + w, rest) := by
  intro n
  induction n with
  | zero =>
    intro acc w rest hw
    rw [pow_zero] at hw
    have hw0 : w = 0 := by omega
    subst hw0
    simp [hexDigits, natDigits, readHex]
  | succ n ih =>
    intro acc w rest hw
    have hdiv : w / 16 ^ n < 16 := by
      refine (Nat.div_lt_iff_lt_mul (Nat.pos_pow_of_pos n (by norm_num))).mpr ?_
      calc w < 16 ^ (n + 1) := hw
        _ = 16 * 16 ^ n := by rw [pow_succ, Nat.mul_comm]
    have hval := hexVal_hexChar _ hdiv
    rw [hexDigits_succ]
    show readHex (n + 1) acc
        (hexChar (w / 16 ^ n) :: (hexDigits n (w % 16 ^ n) ++ rest)) = _
    rw [readHex, hval]
    show readHex n (acc * 16 + w / 16 ^ n) (hexDigits n (w % 16 ^ n) ++ rest) =
      some (acc * 16 ^ (n + 1) + w, rest)
    rw [ih (acc * 16 + w / 16 ^ n) (w % 16 ^ n) rest
      (Nat.mod_lt _ (Nat.pos_pow_of_pos n (by norm_num)))]
    have harith : (acc * 16 + w / 16 ^ n) * 16 ^ n + w % 16 ^ n =
        acc * 16 ^ (n + 1) + w := by
      calc (acc * 16 + w / 16 ^ n) * 16 ^ n + w % 16 ^ n
          = acc * (16 ^ n * 16) + (16 ^ n * (w / 16 ^ n) + w % 16 ^ n) := by ring
        _ = acc * 16 ^ (n + 1) + w := by rw [Nat.div_add_mod, pow_succ]
    rw [harith]

theorem parseUUID_format {v : Nat} (hv : v < 2 ^ 128) :
    parseUUID (formatUUIDChars v) = .ok v := by
  have h16 : v < 16 ^ 32 := by
    calc v < 2 ^ 128 := hv
      _ ≤ 16 ^ 32 := by norm_num
  have hb1 : v / 16 ^ 24 < 16 ^ 8 := by
    refine (Nat.div_lt_iff_lt_mul (by positivity)).mpr ?_
    calc v < 16 ^ 32 := h16
      _ = 16 ^ 8 * 16 ^ 24 := by rw [← pow_add]
  have hb2 : v / 16 ^ 20 % 16 ^ 4 < 16 ^ 4 := Nat.mod_lt _ (by positivity)
  have hb3 : v / 16 ^ 16 % 16 ^ 4 < 16 ^ 4 := Nat.mod_lt _ (by positivity)
  have hb4 : v / 16 ^ 12 % 16 ^ 4 < 16 ^ 4 := Nat.mod_lt _ (by positivity)
  have hb5 : v % 16 ^ 12 < 16 ^ 12 := Nat.mod_lt _ (by positivity)
  have hlast : hexDigits 12 (v % 16 ^ 12) = hexDigits 12 (v % 16 ^ 12) ++ [] :=
    (List.append_nil _).symm
  have hacc : ((((0 * 16 ^ 8 + v / 16 ^ 24) * 16 ^ 4 + v / 16 ^ 20 % 16 ^ 4) * 16 ^ 4 +
      v / 16 ^ 16 % 16 ^ 4) * 16 ^ 4 + v / 16 ^ 12 % 16 ^ 4) * 16 ^ 12 +
      v % 16 ^ 12 = v := by
    norm_num at h16 ⊢
    omega
  unfold parseUUID formatUUIDChars
  rw [hlast]
  simp only [readHex_hexDigits 8 0 _ _ hb1, readHex_hexDigits 4 _ _ _ hb2,
    readHex_hexDigits 4 _ _ _ hb3, readHex_hexDigits 4 _ _ _ hb4,
    readHex_hexDigits 12 _ _ _ hb5, expectDash, if_pos, List.isEmpty_nil,
    if_true, hacc]

/-- C1: converting back after wrapping recovers exactly the registered
prefix and the value: for every registered type name and every 128-bit
value (given as its canonical UUID string), `typeIdFromUUID` succeeds and
`typeIdToUUID` of the result returns the wire prefix `prefixOf(T)`
together with the same UUID string. -/
theorem typeId_uuid_roundtrip (t : IdName) (v : Nat) (hv : v < 2 ^ 128) :
    ∃ id, typeIdFromUUID t (formatUUID v) = Except.ok id ∧
      typeIdToUUID id = Except.ok (formatUUID v, idTypesMapNameToPrefix t) := by
  refine ⟨String.mk (wpChars t ++ '_' :: encodeSuffixChars v), ?_, ?_⟩
  · have htts : tidToString (wpChars t) (encodeSuffixChars v) =
        wpChars t ++ '_' :: encodeSuffixChars v := by
      simp [tidToString, wpChars_ne_nil t]
    unfold typeIdFromUUID
    rw [show (formatUUID v).data = formatUUIDChars v from rfl]
    simp only [parseUUID_format hv, prefixOk_wpChars t, if_true,
      decodeSuffix_encode hv, htts]
  · rw [typeIdToUUID_format (wpChars t) (encodeSuffixChars v) v (wpChars_ne_nil t)
      (prefixOk_wpChars t) (decodeSuffix_encode hv), mk_wpChars]

/-- Witness for C1 at the type name "user" and the value 1. -/
theorem typeId_uuid_roundtrip_witness :
    (1 : Nat) < 2 ^ 128 ∧
      ∃ id, typeIdFromUUID IdName.user (formatUUID 1) = Except.ok id ∧
        typeIdToUUID id = Except.ok (formatUUID 1, idTypesMapNameToPrefix IdName.user) :=
  ⟨by norm_num, typeId_uuid_roundtrip IdName.user 1 (by norm_num)⟩

/-! ### Lexicographic order of the suffix encoding -/

theorem encodeChar_lt_of_lt : ∀ d2 < 32, ∀ d1 < d2, encodeChar d1 < encodeChar d2 := by
  decide

theorem natDigits_map_lex :
    ∀ (n v1 v2 : Nat), v1 < v2 → v2 < 32 ^ n →
      List.Lex (· < ·) ((natDigits 32 n v1).map encodeChar)
        ((natDigits 32 n v2).map encodeChar) := by
  intro n
  induction n with
  | zero =>
    intro v1 v2 h12 h2
    rw [pow_zero] at h2
    omega
  | succ n ih =>
    intro v1 v2 h12 h2
    have hle : v1 / 32 ^ n ≤ v2 / 32 ^ n := Nat.div_le_div_right (Nat.le_of_lt h12)
    have hd2 : v2 / 32 ^ n < 32 := by
      refine (Nat.div_lt_iff_lt_mul (Nat.pos_pow_of_pos n (by norm_num))).mpr ?_
      calc v2 < 32 ^ (n + 1) := h2
        _ = 32 * 32 ^ n := by rw [pow_succ, Nat.mul_comm]
    show List.Lex (· < ·)
      (encodeChar (v1 / 32 ^ n) :: (natDigits 32 n (v1 % 32 ^ n)).map encodeChar)
      (encodeChar (v2 / 32 ^ n) :: (natDigits 32 n (v2 % 32 ^ n)).map encodeChar)
    rcases Nat.lt_or_ge (v1 / 32 ^ n) (v2 / 32 ^ n) with hlt | hge
    · exact List.Lex.rel (encodeChar_lt_of_lt _ hd2 _ hlt)
    · have heq : v1 / 32 ^ n = v2 / 32 ^ n := Nat.le_antisymm hle hge
      have hmod : v1 % 32 ^ n < v2 % 32 ^ n := by
        have e1 := Nat.div_add_mod v1 (32 ^ n)
        have e2 := Nat.div_add_mod v2 (32 ^ n)
        rw [heq] at e1
        omega
      rw [heq]
      exact List.Lex.cons (ih _ _ hmod (Nat.mod_lt _ (Nat.pos_pow_of_pos n (by norm_num))))

/-- C7: the suffix encoding is strictly order-preserving: for 128-bit
values `v1 < v2`, the 26-character suffix of `v1` is strictly smaller
than that of `v2` under ordinary lexicographic string comparison (the
alphabet is listed in ascending character order, so character order
agrees with digit value order). -/
theorem encodeSuffix_strictMono (v1 v2 : Nat) (h12 : v1 < v2) (h2 : v2 < 2 ^ 128) :
    encodeSuffix v1 < encodeSuffix v2 := by
  rw [String.lt_iff_toList_lt]
  show (encodeSuffixChars v1 : List Char) < encodeSuffixChars v2
  show List.Lex (· < ·) (encodeSuffixChars v1) (encodeSuffixChars v2)
  exact natDigits_map_lex 26 v1 v2 h12 (lt_of_lt_of_le h2 two_pow_128_le)

/-- Witness for C7 at the values 0 and 1. -/
theorem encodeSuffix_strictMono_witness :
    (0 : Nat) < 1 ∧ (1 : Nat) < 2 ^ 128 ∧ encodeSuffix 0 < encodeSuffix 1 :=
  ⟨by decide, by norm_num, encodeSuffix_strictMono 0 1 (by decide) (by norm_num)⟩

end TypeidZ
